import Mathlib

/-!
Verification development for the storage and concurrency core of the
cmu15445-fall2020 repository (BusTub).  The C++ sources are shallowly
embedded as executable Lean functions: machine integers become `Nat`/`Int`,
`std::list`/`std::vector` become `List`, `std::unordered_map` becomes an
association list with keyed lookup, and each member function becomes a pure
function from the receiver state to the result and the successor state.
Disk writes and lock-manager interactions are threaded through return values
as explicit traces so that temporal claims ("written back before reuse",
"locked before materializing") can be stated about a single call.
-/

namespace BusTub

/-- `INVALID_PAGE_ID` from `common/config.h`: page id `-1` denotes "invalid". -/
def INVALID_PAGE_ID : Int := -1

/-! ## LRU replacer, embedded from `src/buffer/lru_replacer.cpp`

State is `num_pages_` and the recency list `list_` (most recently unpinned at
the front).  The `map_` member of the C++ class is only a positional index
into `list_` for O(1) erasure; it carries no extra information, so the
embedding keeps the list alone and `map_.count(f)` becomes `f ∈ lru_list`. -/

structure LRUReplacer where
  num_pages : Nat
  lru_list : List Nat
deriving Repr, DecidableEq

/-- `LRUReplacer::Size`: number of evictable frames. -/
def LRUReplacer.size (r : LRUReplacer) : Nat := r.lru_list.length

/-- `LRUReplacer::Victim`: remove and return the back of the list; fail when empty. -/
def LRUReplacer.victim (r : LRUReplacer) : Option Nat × LRUReplacer :=
  if r.size = 0 then (none, r)
  else (r.lru_list.getLast?, { r with lru_list := r.lru_list.dropLast })

/-- `LRUReplacer::Pin`: erase the frame from the list if present. -/
def LRUReplacer.pin (r : LRUReplacer) (frame_id : Nat) : LRUReplacer :=
  if frame_id ∈ r.lru_list then { r with lru_list := r.lru_list.erase frame_id } else r

/-- `LRUReplacer::Unpin`: insert at the front unless full or already present. -/
def LRUReplacer.unpin (r : LRUReplacer) (frame_id : Nat) : LRUReplacer :=
  if r.size = r.num_pages ∨ frame_id ∈ r.lru_list then r
  else { r with lru_list := frame_id :: r.lru_list }

/-! ## Buffer pool manager, embedded from `buffer_pool_manager.cpp`

A frame's byte buffer is abstracted to a single `Nat` (`data`); the disk is an
association list from page id to such contents.  Each operation additionally
returns the list of `DiskManager::WritePage` calls it issued, in order, so
that write-back behaviour is observable. -/

structure Page where
  page_id : Int
  pin_count : Nat
  is_dirty : Bool
  data : Nat
deriving Repr, DecidableEq

/-- A default-constructed `Page`: invalid id, zero pin count, clean, zeroed data. -/
def Page.empty : Page := { page_id := INVALID_PAGE_ID, pin_count := 0, is_dirty := false, data := 0 }

/-- `Page::update(page_id, pin_count, is_dirty, reset_memory)`.
Modelled from the spec: the helper is declared in a header that is not part of
the sources; per spec §4.3 it sets the metadata fields and, when
`reset_memory` holds (the `NewPage` path), zeroes the frame's bytes. -/
def Page.update (p : Page) (pid : Int) (pin : Nat) (dirty : Bool) (reset : Bool) : Page :=
  { page_id := pid, pin_count := pin, is_dirty := dirty, data := if reset then 0 else p.data }

structure DiskManager where
  disk : List (Int × Nat)
  next_page_id : Int
deriving Repr, DecidableEq

/-- `DiskManager::WritePage`: store the bytes at the page's slot. -/
def DiskManager.writePage (d : DiskManager) (pid : Int) (v : Nat) : DiskManager :=
  { d with disk := (pid, v) :: d.disk.filter (fun e => e.1 ≠ pid) }

/-- `DiskManager::ReadPage`: short reads of never-written pages return a zeroed buffer. -/
def DiskManager.readPage (d : DiskManager) (pid : Int) : Nat :=
  ((d.disk.lookup pid).getD 0)

/-- `DiskManager::AllocatePage`: monotonically increasing page ids. -/
def DiskManager.allocatePage (d : DiskManager) : Int × DiskManager :=
  (d.next_page_id, { d with next_page_id := d.next_page_id + 1 })

structure BufferPoolManager where
  pool_size : Nat
  pages : List Page
  page_table : List (Int × Nat)
  free_list : List Nat
  replacer : LRUReplacer
  disk_manager : DiskManager
deriving Repr, DecidableEq

/-- Erase a page-table binding (`page_table_.erase(k)`). -/
def ptErase (t : List (Int × Nat)) (k : Int) : List (Int × Nat) :=
  t.filter (fun e => e.1 ≠ k)

/-- Overwrite a page-table binding (`page_table_[k] = v`). -/
def ptSet (t : List (Int × Nat)) (k : Int) (v : Nat) : List (Int × Nat) :=
  (k, v) :: ptErase t k

/-- `BufferPoolManager::GetVictimFrameId`: free list first, then the replacer. -/
def BufferPoolManager.getVictimFrameId (b : BufferPoolManager) : Option Nat × BufferPoolManager :=
  match b.free_list with
  | f :: rest => (some f, { b with free_list := rest })
  | [] =>
      match b.replacer.victim with
      | (v, r) => (v, { b with replacer := r })

/-- `BufferPoolManager::FetchPageImpl`.  Returns the frame id of the fetched
page (`nullptr` = `none`), the successor state, and the `WritePage` trace. -/
def BufferPoolManager.fetchPage (b : BufferPoolManager) (page_id : Int) :
    Option Nat × BufferPoolManager × List (Int × Nat) :=
  match b.page_table.lookup page_id with
  | some frame_id =>
      let page := b.pages.getD frame_id Page.empty
      (some frame_id,
       { b with replacer := b.replacer.pin frame_id,
                pages := b.pages.set frame_id { page with pin_count := page.pin_count + 1 } },
       [])
  | none =>
      match b.getVictimFrameId with
      | (none, b₁) => (none, b₁, [])
      | (some frame_id, b₁) =>
          let page := b₁.pages.getD frame_id Page.empty
          let writes := if page.is_dirty then [(page.page_id, page.data)] else []
          let dm := if page.is_dirty then b₁.disk_manager.writePage page.page_id page.data
                    else b₁.disk_manager
          let pt := ptSet (ptErase b₁.page_table page.page_id) page_id frame_id
          let page' := (({ page with data := dm.readPage page_id }).update page_id 1 false false)
          (some frame_id,
           { b₁ with pages := b₁.pages.set frame_id page',
                     page_table := pt,
                     disk_manager := dm,
                     replacer := b₁.replacer.pin frame_id },
           writes)

/-- `BufferPoolManager::UnpinPageImpl`. -/
def BufferPoolManager.unpinPage (b : BufferPoolManager) (page_id : Int) (is_dirty : Bool) :
    Bool × BufferPoolManager :=
  match b.page_table.lookup page_id with
  | none => (false, b)
  | some frame_id =>
      let page := b.pages.getD frame_id Page.empty
      if page.pin_count ≤ 0 then (false, b)
      else
        let page' := { page with is_dirty := page.is_dirty || is_dirty,
                                 pin_count := page.pin_count - 1 }
        let rep := if page.pin_count - 1 = 0 then b.replacer.unpin frame_id else b.replacer
        (true, { b with pages := b.pages.set frame_id page', replacer := rep })

/-- `BufferPoolManager::NewPageImpl`.  Returns the allocated page id together
with the frame id on success, plus the `WritePage` trace. -/
def BufferPoolManager.newPage (b : BufferPoolManager) :
    Option (Int × Nat) × BufferPoolManager × List (Int × Nat) :=
  match b.getVictimFrameId with
  | (none, b₁) => (none, b₁, [])
  | (some frame_id, b₁) =>
      let page := b₁.pages.getD frame_id Page.empty
      let writes := if page.is_dirty then [(page.page_id, page.data)] else []
      let dm := if page.is_dirty then b₁.disk_manager.writePage page.page_id page.data
                else b₁.disk_manager
      match dm.allocatePage with
      | (new_pid, dm₁) =>
          let pt := ptSet (ptErase b₁.page_table page.page_id) new_pid frame_id
          let page' := page.update new_pid 1 false true
          (some (new_pid, frame_id),
           { b₁ with pages := b₁.pages.set frame_id page',
                     page_table := pt,
                     disk_manager := dm₁,
                     replacer := b₁.replacer.pin frame_id },
           writes)

/-- `BufferPoolManager::DeletePageImpl`.  `DeallocatePage` is a bookkeeping
no-op in the disk manager (spec §4.1), so only the pool state changes. -/
def BufferPoolManager.deletePage (b : BufferPoolManager) (page_id : Int) :
    Bool × BufferPoolManager × List (Int × Nat) :=
  match b.page_table.lookup page_id with
  | none => (true, b, [])
  | some frame_id =>
      let page := b.pages.getD frame_id Page.empty
      if page.pin_count > 0 then (false, b, [])
      else
        (true,
         { b with page_table := ptErase b.page_table page.page_id,
                  free_list := b.free_list ++ [frame_id],
                  pages := b.pages.set frame_id (page.update INVALID_PAGE_ID 0 false false) },
         [])

/-! ## Lock manager, embedded from `lock_manager.cpp`

Rids are abstracted to `Nat`.  `lock_table_` is an association list with the
`unordered_map::operator[]` default-construction behaviour.  A single lock
call is embedded as a function of the (table, transaction) state; the
condition-variable wait becomes a three-way outcome: the call either returns
(`granted`), aborts (`aborted`, the C++ `TransactionAbortException`), or has
not yet returned because its wake-up predicate is false (`blocked`). -/

inductive TransactionState where
  | growing | shrinking | committed | aborted
deriving Repr, DecidableEq

inductive IsolationLevel where
  | read_uncommitted | read_committed | repeatable_read
deriving Repr, DecidableEq

/-- `AbortReason`; `lockshared_on_read_uncommitted` is the spec's
"shared-on-read-uncommitted". -/
inductive AbortReason where
  | lock_on_shrinking | upgrade_conflict | deadlock | lockshared_on_read_uncommitted
deriving Repr, DecidableEq

inductive LockMode where
  | shared | exclusive
deriving Repr, DecidableEq

structure Transaction where
  txn_id : Nat
  state : TransactionState
  isolation_level : IsolationLevel
  shared_lock_set : List Nat
  exclusive_lock_set : List Nat
deriving Repr, DecidableEq

structure LockRequest where
  txn_id : Nat
  lock_mode : LockMode
  granted : Bool
deriving Repr, DecidableEq

structure LockRequestQueue where
  request_queue : List LockRequest
  reader_count : Int
  writer_enter : Bool
  upgrading : Bool
deriving Repr, DecidableEq

/-- A default-constructed `LockRequestQueue` (`lock_table_[rid]` on a fresh rid). -/
def LockRequestQueue.init : LockRequestQueue :=
  { request_queue := [], reader_count := 0, writer_enter := false, upgrading := false }

abbrev LockTable := List (Nat × LockRequestQueue)

/-- `lock_table_[rid]` read access with default construction. -/
def ltGet (lt : LockTable) (rid : Nat) : LockRequestQueue :=
  (lt.lookup rid).getD LockRequestQueue.init

/-- Store back the queue of `rid`. -/
def ltSet (lt : LockTable) (rid : Nat) (q : LockRequestQueue) : LockTable :=
  (rid, q) :: lt.filter (fun e => e.1 ≠ rid)

/-- `LockManager::GetRequest`: first request of the transaction in the rid's queue. -/
def getRequest (q : LockRequestQueue) (txn_id : Nat) : Option LockRequest :=
  q.request_queue.find? (fun r => r.txn_id = txn_id)

/-- Erase the transaction's request from a queue (`request_queue_.erase(it)`). -/
def eraseRequest (rs : List LockRequest) (txn_id : Nat) : List LockRequest :=
  match rs with
  | [] => []
  | r :: rest => if r.txn_id = txn_id then rest else r :: eraseRequest rest txn_id

/-- Outcome of one lock-manager call: the returned boolean is always `true` in
the sources, so `granted` carries the successor (transaction, table);
`aborted` is a thrown `TransactionAbortException`; `blocked` is a call parked
on `cv_.wait` whose predicate is false, shown with the state it left behind. -/
inductive LockOutcome where
  | granted (txn : Transaction) (lt : LockTable)
  | blocked (txn : Transaction) (lt : LockTable)
  | aborted (reason : AbortReason) (txn : Transaction) (lt : LockTable)
deriving Repr, DecidableEq

/-- Whether the call raised a `TransactionAbortException`. -/
def LockOutcome.isAborted : LockOutcome → Bool
  | .aborted _ _ _ => true
  | _ => false

/-- `LockManager::LockShared`. -/
def lockShared (lt : LockTable) (txn : Transaction) (rid : Nat) : LockOutcome :=
  -- CheckShrinking
  if txn.state = TransactionState.shrinking then
    .aborted .lock_on_shrinking { txn with state := .aborted } lt
  -- no need to lock twice
  else if rid ∈ txn.shared_lock_set then
    .granted txn lt
  -- read-uncommitted takes no shared locks
  else if txn.isolation_level = IsolationLevel.read_uncommitted then
    .aborted .lockshared_on_read_uncommitted { txn with state := .aborted } lt
  else
    let q := ltGet lt rid
    -- wait predicate: !writer_enter_ || aborted
    if q.writer_enter ∧ txn.state ≠ TransactionState.aborted then
      .blocked txn (ltSet lt rid
        { q with request_queue := q.request_queue ++ [⟨txn.txn_id, .shared, false⟩] })
    -- CheckAborted (deadlock victim raised on wake)
    else if txn.state = TransactionState.aborted then
      .aborted .deadlock txn (ltSet lt rid
        { q with request_queue := q.request_queue ++ [⟨txn.txn_id, .shared, false⟩] })
    else
      .granted { txn with shared_lock_set := rid :: txn.shared_lock_set }
        (ltSet lt rid
          { q with request_queue := q.request_queue ++ [⟨txn.txn_id, .shared, true⟩],
                   reader_count := q.reader_count + 1 })

/-- `LockManager::LockExclusive`. -/
def lockExclusive (lt : LockTable) (txn : Transaction) (rid : Nat) : LockOutcome :=
  if txn.state = TransactionState.shrinking then
    .aborted .lock_on_shrinking { txn with state := .aborted } lt
  else if rid ∈ txn.exclusive_lock_set then
    .granted txn lt
  else
    let q := ltGet lt rid
    -- wait predicate: (!writer_enter_ && reader_count_ == 0) || aborted
    if (q.writer_enter ∨ q.reader_count ≠ 0) ∧ txn.state ≠ TransactionState.aborted then
      .blocked txn (ltSet lt rid
        { q with request_queue := q.request_queue ++ [⟨txn.txn_id, .exclusive, false⟩] })
    else if txn.state = TransactionState.aborted then
      .aborted .deadlock txn (ltSet lt rid
        { q with request_queue := q.request_queue ++ [⟨txn.txn_id, .exclusive, false⟩] })
    else
      .granted { txn with exclusive_lock_set := rid :: txn.exclusive_lock_set }
        (ltSet lt rid
          { q with request_queue := q.request_queue ++ [⟨txn.txn_id, .exclusive, true⟩],
                   writer_enter := true })

/-- `LockManager::Unlock`.  The C++ dereferences `GetRequest`'s iterator
unconditionally; when the transaction has no request in the queue that is
undefined behaviour, embedded as `none`. -/
def unlock (lt : LockTable) (txn : Transaction) (rid : Nat) :
    Option (Transaction × LockTable) :=
  let txn₁ := { txn with shared_lock_set := txn.shared_lock_set.erase rid,
                         exclusive_lock_set := txn.exclusive_lock_set.erase rid }
  match getRequest (ltGet lt rid) txn.txn_id with
  | none => none
  | some req =>
      -- read-committed drops two-phase behaviour for shared locks
      let txn₂ :=
        if txn₁.state = TransactionState.growing ∧
            ¬(req.lock_mode = LockMode.shared ∧
              txn₁.isolation_level = IsolationLevel.read_committed) then
          { txn₁ with state := .shrinking }
        else txn₁
      let q := ltGet lt rid
      let q₁ := { q with request_queue := eraseRequest q.request_queue txn.txn_id }
      let q₂ :=
        if req.lock_mode = LockMode.shared then
          { q₁ with reader_count := q₁.reader_count - 1 }
        else
          { q₁ with writer_enter := false }
      some (txn₂, ltSet lt rid q₂)

/-! ### Wait-for graph construction, from `LockManager::RunCycleDetection`,
`AddEdge`, `HasCycle` and `DFS`. -/

abbrev WaitGraph := List (Nat × List Nat)

/-- Adjacency read (`waits_for_[t1]`). -/
def adjGet (g : WaitGraph) (t : Nat) : List Nat :=
  (g.lookup t).getD []

/-- Store back an adjacency list. -/
def adjSet (g : WaitGraph) (t : Nat) (ns : List Nat) : WaitGraph :=
  (t, ns) :: g.filter (fun e => e.1 ≠ t)

/-- `LockManager::AddEdge`: append `t2` to `t1`'s neighbours unless present.
(The insertions into `txns_` are modelled separately by the caller.) -/
def addEdge (g : WaitGraph) (t1 t2 : Nat) : WaitGraph :=
  let ns := adjGet g t1
  if t2 ∈ ns then g else adjSet g t1 (ns ++ [t2])

/-- Whether the built graph has the edge `t1 → t2`. -/
def hasEdge (g : WaitGraph) (t1 t2 : Nat) : Bool :=
  t2 ∈ adjGet g t1

/-- The graph edges contributed by one queue in `RunCycleDetection`: the first
loop collects `grants`, the granted prefix of the queue; the second loop adds
an edge from every remaining request to every member of `grants`. -/
def buildQueueEdges (g : WaitGraph) (rs : List LockRequest) : WaitGraph :=
  let grants := (rs.takeWhile (fun r => r.granted)).map (fun r => r.txn_id)
  let rest := rs.dropWhile (fun r => r.granted)
  rest.foldl (fun g r => grants.foldl (fun g t2 => addEdge g r.txn_id t2) g) g

/-- Wait-for graph built from the current lock table (`RunCycleDetection`,
one detector round, before `HasCycle` runs). -/
def buildGraph (lt : LockTable) : WaitGraph :=
  lt.foldl (fun g e => buildQueueEdges g e.2.request_queue) []

/-- The claim's reading of the wait-for edge relation (spec §3): `t1` has an
ungranted request positioned behind a granted request of `t2` in some queue. -/
def specEdge (lt : LockTable) (t1 t2 : Nat) : Prop :=
  ∃ e ∈ lt, ∃ i j : Nat, j < i ∧
    (∃ r1, e.2.request_queue[i]? = some r1 ∧ r1.granted = false ∧ r1.txn_id = t1) ∧
    (∃ r2, e.2.request_queue[j]? = some r2 ∧ r2.granted = true ∧ r2.txn_id = t2)

/-- Transaction ids of the maximal granted prefix of a queue. -/
def grantIds (rs : List LockRequest) : List Nat :=
  (rs.takeWhile (fun r => r.granted)).map (fun r => r.txn_id)

/-- Transaction ids of the requests behind the maximal granted prefix. -/
def waiterIds (rs : List LockRequest) : List Nat :=
  (rs.dropWhile (fun r => r.granted)).map (fun r => r.txn_id)

/-! ### Cycle detection, from `LockManager::HasCycle` / `LockManager::DFS`

`on_stack_txns_` is a `std::set<txn_id_t>`, embedded as a strictly ascending
list, so `*on_stack_txns_.rbegin()` is the last element.  `DFS` is recursive
through the graph, which may be cyclic, so the embedding carries fuel; with
exhausted fuel a call returns its state unchanged (enough fuel always exists
for the real, finite graphs). -/

/-- `std::set` insertion into a strictly ascending list. -/
def setInsert (x : Nat) : List Nat → List Nat
  | [] => [x]
  | y :: rest =>
      if x < y then x :: y :: rest
      else if x = y then y :: rest
      else y :: setInsert x rest

structure CycleState where
  on_stack_txns : List Nat
  has_cycle : Bool
deriving Repr, DecidableEq

mutual
/-- `LockManager::DFS`. -/
def dfs (g : WaitGraph) : Nat → Nat → CycleState → CycleState
  | 0, _, st => st
  | fuel + 1, v, st =>
      if st.has_cycle then st
      else
        let st₁ := { st with on_stack_txns := setInsert v st.on_stack_txns }
        -- neighbours are sorted ascending in place before the loop
        dfsLoop g fuel v ((adjGet g v).mergeSort (· ≤ ·)) st₁
termination_by fuel _ _ => (fuel, 0)

/-- The `for (auto t2 : neighbors)` loop body of `DFS`: a hit on the stack
sets `has_cycle_` and returns early (no erasure); when the loop completes,
`v` is erased from the stack even if a deeper call found a cycle. -/
def dfsLoop (g : WaitGraph) : Nat → Nat → List Nat → CycleState → CycleState
  | _, v, [], st => { st with on_stack_txns := st.on_stack_txns.erase v }
  | fuel, v, t2 :: ts, st =>
      if t2 ∈ st.on_stack_txns then { st with has_cycle := true }
      else dfsLoop g fuel v ts (dfs g fuel t2 st)
termination_by fuel _ ts _ => (fuel, ts.length + 1)
end

/-- The loop of `LockManager::HasCycle`: run `DFS` from each vertex of
`txns_` in ascending order; stop at the first iteration that sets
`has_cycle_`, returning the detector state at that moment. -/
def hasCycleSearch (g : WaitGraph) (fuel : Nat) : List Nat → CycleState → Option CycleState
  | [], _ => none
  | t1 :: ts, st =>
      let st₁ := dfs g fuel t1 st
      if st₁.has_cycle then some st₁ else hasCycleSearch g fuel ts st₁

/-- `LockManager::HasCycle`: the reported victim is `*on_stack_txns_.rbegin()`,
the last element of the ascending stack set. -/
def hasCycle (g : WaitGraph) (fuel : Nat) (txns : List Nat) : Option Nat :=
  match hasCycleSearch g fuel txns { on_stack_txns := [], has_cycle := false } with
  | some st => st.on_stack_txns.getLast?
  | none => none

/-! ## Sequential scan executor, embedded from `seq_scan_executor.cpp`

Tuples are abstracted to `Nat`; the table-heap iterator range becomes the list
of `(rid, tuple)` pairs still ahead of `it_`.  A call to `Next` walks that
list; the interactions with the lock manager and the tuple materialization
(`*tuple = *it_++`) are recorded as an ordered event trace. -/

inductive ScanEvent where
  | lockShared (rid : Nat)
  | unlock (rid : Nat)
  | materialize (rid : Nat)
deriving Repr, DecidableEq

structure ScanTxn where
  isolation_level : IsolationLevel
  exclusive_lock_set : List Nat
deriving Repr, DecidableEq

/-- `SeqScanExecutor::Unlock`: only read-committed releases the shared lock. -/
def seqScanUnlock (txn : ScanTxn) (rid : Nat) : List ScanEvent :=
  if txn.isolation_level = IsolationLevel.read_committed then [ScanEvent.unlock rid] else []

/-- `SeqScanExecutor::Next`: returns the produced output tuple (projected
through `proj`) with its rid, or `none` at the end of the table, together
with the event trace of the call. -/
def seqScanNext (txn : ScanTxn) (pred : Nat → Bool) (proj : Nat → Nat) :
    List (Nat × Nat) → Option (Nat × Nat) × List ScanEvent
  | [] => (none, [])
  | (rid, tuple) :: rest =>
      let lockEvs :=
        if txn.isolation_level ≠ IsolationLevel.read_uncommitted ∧
            rid ∉ txn.exclusive_lock_set then
          [ScanEvent.lockShared rid]
        else []
      let evs := lockEvs ++ [ScanEvent.materialize rid]
      if pred tuple then
        (some (proj tuple, rid), evs ++ seqScanUnlock txn rid)
      else
        let r := seqScanNext txn pred proj rest
        (r.1, evs ++ seqScanUnlock txn rid ++ r.2)

/-! ### Trace disciplines stated from the claim, for comparison with the
`seqScanNext` embedding. -/

/-- Locking discipline of the claim: every materialization of a rid that
requires a lock (`need`) is immediately preceded by the acquisition of the
shared lock on that rid. -/
def lockHeldAtMaterialize (need : Nat → Bool) : List ScanEvent → Bool
  | [] => true
  | .materialize r :: rest => !need r && lockHeldAtMaterialize need rest
  | .lockShared r :: .materialize r' :: rest =>
      (decide (r' = r) || !need r') && lockHeldAtMaterialize need rest
  | _ :: rest => lockHeldAtMaterialize need rest

/-- Release discipline of the claim for read-committed: every
materialization is immediately followed by the release of its rid's lock
(on both the match and the non-match path, since every examined tuple
materializes). -/
def unlockFollowsMaterialize : List ScanEvent → Bool
  | [] => true
  | .materialize r :: rest =>
      match rest with
      | .unlock r' :: rest' => decide (r = r') && unlockFollowsMaterialize rest'
      | _ => false
  | _ :: rest => unlockFollowsMaterialize rest

/-- No lock release occurs anywhere in the trace (the claim's
repeatable-read obligation). -/
def noUnlockEvents : List ScanEvent → Bool
  | [] => true
  | .unlock _ :: _ => false
  | _ :: rest => noUnlockEvents rest

/-! ## B+tree index iterator, embedded from `index_iterator.cpp`

The iterator keeps `page_id_` and `index_`; the pinned leaf frame is read
through a store of leaf snapshots (`items` and `next_page_id`) indexed by
page id, standing for the buffer pool.  `isEnd` and `operator==` only touch
`page_id_`/`index_`. -/

structure LeafSnap where
  items : List (Nat × Nat)
  next_page_id : Int
deriving Repr, DecidableEq

abbrev LeafStore := List (Int × LeafSnap)

structure IndexIterator where
  page_id : Int
  index : Int
deriving Repr, DecidableEq

/-- `IndexIterator::isEnd`. -/
def IndexIterator.isEnd (it : IndexIterator) : Bool :=
  it.page_id = INVALID_PAGE_ID

/-- `IndexIterator::operator==`: compares `page_id_` and `index_`. -/
def iterEq (a b : IndexIterator) : Bool :=
  a.page_id = b.page_id ∧ a.index = b.index

/-- The end iterator, from `BPlusTree::end()`: null page, index 0. -/
def iterEnd : IndexIterator := { page_id := INVALID_PAGE_ID, index := 0 }

/-- `IndexIterator::operator++`. -/
def iterInc (store : LeafStore) (it : IndexIterator) : IndexIterator :=
  if it.isEnd then it
  else
    let leaf := (store.lookup it.page_id).getD { items := [], next_page_id := INVALID_PAGE_ID }
    if it.index < (leaf.items.length : Int) - 1 then { it with index := it.index + 1 }
    else { page_id := leaf.next_page_id, index := 0 }

/-! ## B+tree, embedded from `b_plus_tree.cpp`

Keys and record values are abstracted to `Nat` with the standard order as the
comparator.  The page-id indirection through the buffer pool is replaced by
direct subtrees: a node is either a leaf holding key/value pairs or an
internal node holding the source layout's array of (key, child) pairs, where
slot 0's key is the unused "minus-infinity" sentinel.  The tree itself is the
root (`root_page_id_ == INVALID_PAGE_ID` becomes `none`).  Latching, pinning
and the header-page bookkeeping (`UpdateRootPageId`) have no observable
effect on the key/value contents and are dropped. -/

inductive BPTreeNode where
  | leaf (items : List (Nat × Nat))
  | internal (pairs : List (Nat × BPTreeNode))
deriving Repr

/-- The tree: `none` is the empty tree (`IsEmpty`). -/
abbrev BPlusTree := Option BPTreeNode

/-- `BPlusTreeLeafPage::Lookup`.  Modelled from the spec: the leaf-page
sources are not in the repository snapshot; per spec §4.4 the leaf performs a
search under the comparator among its pairs. -/
def leafLookup (items : List (Nat × Nat)) (k : Nat) : Option Nat :=
  match items with
  | [] => none
  | (k', v') :: rest => if k' = k then some v' else leafLookup rest k

/-- `BPlusTreeLeafPage::Insert`.  Modelled from the spec: keys within a node
are kept strictly ascending (spec §3), so insertion is at the sorted
position.  The caller has already ruled out a duplicate key. -/
def leafInsert (items : List (Nat × Nat)) (k v : Nat) : List (Nat × Nat) :=
  match items with
  | [] => [(k, v)]
  | (k', v') :: rest =>
      if k < k' then (k, v) :: (k', v') :: rest else (k', v') :: leafInsert rest k v

/-- `BPlusTreeLeafPage::RemoveAndDeleteRecord`.  Modelled from the spec:
remove the pair with the given key, if present. -/
def leafRemove (items : List (Nat × Nat)) (k : Nat) : List (Nat × Nat) :=
  items.filter (fun e => e.1 ≠ k)

/-- `BPlusTreePage::GetSize`. -/
def nodeSize : BPTreeNode → Nat
  | .leaf items => items.length
  | .internal pairs => pairs.length

/-- `BPlusTreePage::GetMaxSize` for a node of the given kind. -/
def nodeMax (leaf_max_size internal_max_size : Nat) : BPTreeNode → Nat
  | .leaf _ => leaf_max_size
  | .internal _ => internal_max_size

/-- `BPlusTreePage::GetMinSize`.  Modelled from the spec §3 occupancy
invariants: leaves hold at least `⌈(m−1)/2⌉ = m/2` pairs and internal nodes
at least `⌈m/2⌉` children. -/
def nodeMin (leaf_max_size internal_max_size : Nat) : BPTreeNode → Nat
  | .leaf _ => leaf_max_size / 2
  | .internal _ => (internal_max_size + 1) / 2

/-- `KeyAt(0)` of a node (the first key of a new sibling after a split, or
the separator source after a redistribution). -/
def nodeKeyAt0 : BPTreeNode → Nat
  | .leaf items => (items.headD (0, 0)).1
  | .internal pairs => (pairs.headD (0, .internal [])).1

mutual
/-- `BPlusTree::FindLeafPage` (read descent): at an internal node descend to
the child returned by `BPlusTreeInternalPage::Lookup` — the child at the last
slot whose key is ≤ the search key (slot 0 when the key precedes every
separator). -/
def findLeaf : BPTreeNode → Nat → List (Nat × Nat)
  | .leaf items, _ => items
  | .internal [], _ => []
  | .internal ((k0, c0) :: rest), k => findLeafChain k0 c0 rest k
termination_by t _ => (sizeOf t, 0)

/-- The scan of `BPlusTreeInternalPage::Lookup` embedded as a walk that
carries the current candidate child. -/
def findLeafChain (ck : Nat) (cc : BPTreeNode) (rest : List (Nat × BPTreeNode)) (k : Nat) :
    List (Nat × Nat) :=
  match rest with
  | [] => findLeaf cc k
  | (k1, c1) :: rest' => if k < k1 then findLeaf cc k else findLeafChain k1 c1 rest' k
termination_by (sizeOf cc + sizeOf rest, 0)
end

/-- Result of `InsertIntoLeaf`/`InsertIntoParent` below some subtree: a
duplicate key (`return false`), an updated subtree, or a split producing a
new right sibling and the separator key handed to `InsertIntoParent`. -/
inductive InsResult where
  | dup
  | one (t : BPTreeNode)
  | split (l : BPTreeNode) (key : Nat) (r : BPTreeNode)

/-- Result of descending into one child slot of an internal node. -/
inductive ChainResult where
  | dup
  | pairs (ps : List (Nat × BPTreeNode))

mutual
/-- The insertion descent of `BPlusTree::InsertIntoLeaf` together with the
upward splitting of `Split`/`InsertIntoParent`, folded into one recursive
function.  At the leaf, reject an existing key; insert; when the leaf reaches
`leaf_max_size` split it, keeping the lower `m/2` pairs (the leaf min size)
and moving the upper half to the new sibling whose first key is pushed up.
At an internal node, descend into the `Lookup` child; a child split inserts
the (key, new child) pair right after the old child's slot
(`InsertNodeAfter`), and when the node reaches `internal_max_size` it splits
in turn, the new sibling keeping its first key as the pushed-up separator
(`Split` + `new_page->KeyAt(0)`). -/
def insertRec (leaf_max_size internal_max_size : Nat) :
    BPTreeNode → Nat → Nat → InsResult
  | .leaf items, k, v =>
      if (leafLookup items k).isSome then .dup
      else
        let items' := leafInsert items k v
        if items'.length = leaf_max_size then
          let lhalf := items'.take (leaf_max_size / 2)
          let rhalf := items'.drop (leaf_max_size / 2)
          .split (.leaf lhalf) ((rhalf.headD (0, 0)).1) (.leaf rhalf)
        else .one (.leaf items')
  | .internal [], _, _ => .one (.internal [])
  | .internal ((k0, c0) :: rest), k, v =>
      match insChain leaf_max_size internal_max_size k0 c0 rest k v with
      | .dup => .dup
      | .pairs ps =>
          if ps.length = internal_max_size then
            let lhalf := ps.take ((internal_max_size + 1) / 2)
            let rhalf := ps.drop ((internal_max_size + 1) / 2)
            .split (.internal lhalf) ((rhalf.headD (0, .internal [])).1) (.internal rhalf)
          else .one (.internal ps)
termination_by t _ _ => (sizeOf t, 0)

/-- Child selection for insertion: the same scan as `findLeafChain`, here
rebuilding the pair list around the updated (or split) child. -/
def insChain (leaf_max_size internal_max_size : Nat) (ck : Nat) (cc : BPTreeNode)
    (rest : List (Nat × BPTreeNode)) (k v : Nat) : ChainResult :=
  match rest with
  | [] =>
      match insertRec leaf_max_size internal_max_size cc k v with
      | .dup => .dup
      | .one c' => .pairs [(ck, c')]
      | .split l sk r => .pairs [(ck, l), (sk, r)]
  | (k1, c1) :: rest' =>
      if k < k1 then
        match insertRec leaf_max_size internal_max_size cc k v with
        | .dup => .dup
        | .one c' => .pairs ((ck, c') :: (k1, c1) :: rest')
        | .split l sk r => .pairs ((ck, l) :: (sk, r) :: (k1, c1) :: rest')
      else
        match insChain leaf_max_size internal_max_size k1 c1 rest' k v with
        | .dup => .dup
        | .pairs ps => .pairs ((ck, cc) :: ps)
termination_by (sizeOf cc + sizeOf rest, 0)
end

/-- `BPlusTree::Insert` / `StartNewTree` / the root case of
`InsertIntoParent` (`PopulateNewRoot`: slot 0 holds the old root with the
unused sentinel key, slot 1 the new sibling under the pushed-up key). -/
def insert (leaf_max_size internal_max_size : Nat) (t : BPlusTree) (k v : Nat) :
    Bool × BPlusTree :=
  match t with
  | none => (true, some (.leaf [(k, v)]))
  | some root =>
      match insertRec leaf_max_size internal_max_size root k v with
      | .dup => (false, some root)
      | .one r => (true, some r)
      | .split l sk r => (true, some (.internal [(0, l), (sk, r)]))

/-- Index of the `Lookup` child inside an internal node's pair array. -/
def childIdxGo (i : Nat) (rest : List (Nat × BPTreeNode)) (k : Nat) : Nat :=
  match rest with
  | [] => i
  | (k1, _) :: rest' => if k < k1 then i else childIdxGo (i + 1) rest' k

/-- 0-based slot of the child `FindLeafPage` descends into. -/
def childIdx (pairs : List (Nat × BPTreeNode)) (k : Nat) : Nat :=
  match pairs with
  | [] => 0
  | _ :: rest => childIdxGo 0 rest k

/-- `MoveAllTo` of `Coalesce`: all pairs of the right participant flow into
the left one; for internal nodes the parent's separator key is pulled down as
the key over the right node's first child.  Modelled from the spec (§4.4
coalesce) where the node sources are missing. -/
def moveAllTo (left right : BPTreeNode) (middleKey : Nat) : BPTreeNode :=
  match left, right with
  | .leaf li, .leaf ri => .leaf (li ++ ri)
  | .internal lp, .internal rp =>
      match rp with
      | [] => .internal lp
      | (_, rc0) :: rrest => .internal (lp ++ (middleKey, rc0) :: rrest)
  | l, _ => l

/-- `MoveFirstToEndOf` of `Redistribute` (right sibling case), returning
(node', sibling').  Modelled from the spec §4.4 redistribution. -/
def moveFirstToEndOf (node sib : BPTreeNode) (middleKey : Nat) :
    BPTreeNode × BPTreeNode :=
  match node, sib with
  | .leaf ni, .leaf si => (.leaf (ni ++ si.take 1), .leaf (si.drop 1))
  | .internal np, .internal sp =>
      match sp with
      | [] => (.internal np, .internal [])
      | (_, sc0) :: srest => (.internal (np ++ [(middleKey, sc0)]), .internal srest)
  | n, s => (n, s)

/-- `MoveLastToFrontOf` of `Redistribute` (left sibling case), returning
(node', sibling').  Modelled from the spec §4.4 redistribution. -/
def moveLastToFrontOf (node sib : BPTreeNode) (middleKey : Nat) :
    BPTreeNode × BPTreeNode :=
  match node, sib with
  | .leaf ni, .leaf si => (.leaf (si.drop (si.length - 1) ++ ni), .leaf (si.take (si.length - 1)))
  | .internal np, .internal sp =>
      match np, sp.getLast? with
      | [], _ => (.internal np, .internal sp)
      | _ :: _, none => (.internal np, .internal sp)
      | (_, nc0) :: nrest, some (lk, lc) =>
          (.internal ((lk, lc) :: (middleKey, nc0) :: nrest), .internal sp.dropLast)
  | n, s => (n, s)

/-- The sibling arithmetic of `BPlusTree::CoalesceOrRedistribute` /
`Coalesce` / `Redistribute`, acting on the parent's pair array at the slot
`i` of the underfull (or merge-triggering) child.  Returns the updated pair
array and whether the children were merged (`is_merge`), in which case the
source recurses on the parent unconditionally. -/
def fixChild (leaf_max_size internal_max_size : Nat)
    (pairs : List (Nat × BPTreeNode)) (i : Nat) : List (Nat × BPTreeNode) × Bool :=
  let j := if i > 0 then i - 1 else 1
  match pairs[i]?, pairs[j]? with
  | some (ki, node), some (kj, sib) =>
      if nodeSize sib + nodeSize node ≤ nodeMax leaf_max_size internal_max_size node - 1 then
        -- Coalesce, with pointers swapped so data always flows right → left
        let li := min i j
        let ri := max i j
        let middleKey := ((pairs[ri]?.map (fun p => p.1)).getD 0)
        let left := ((pairs[li]?.map (fun p => p.2)).getD (.internal []))
        let right := ((pairs[ri]?.map (fun p => p.2)).getD (.internal []))
        let leftKey := ((pairs[li]?.map (fun p => p.1)).getD 0)
        (((pairs.set li (leftKey, moveAllTo left right middleKey)).eraseIdx ri), true)
      else
        -- Redistribute
        let middleIdx := if i = 0 then 1 else i
        let middleKey := ((pairs[middleIdx]?.map (fun p => p.1)).getD 0)
        if i = 0 then
          match moveFirstToEndOf node sib middleKey with
          | (node', sib') =>
              (((pairs.set i (ki, node')).set middleIdx (nodeKeyAt0 sib', sib')), false)
        else
          match moveLastToFrontOf node sib middleKey with
          | (node', sib') =>
              (((pairs.set j (kj, sib')).set middleIdx (nodeKeyAt0 node', node')), false)
  | _, _ => (pairs, false)

/-- The removal descent of `BPlusTree::Remove` with the upward
`CoalesceOrRedistribute` recursion folded in.  Returns the updated subtree
and whether the caller must run `CoalesceOrRedistribute` on it: at a leaf
that is the `size < GetMinSize()` gate of `Remove`; at an internal node it is
set exactly when its children were coalesced, since `Coalesce` recurses on
the parent unconditionally. -/
def removeRec (leaf_max_size internal_max_size : Nat) :
    BPTreeNode → Nat → BPTreeNode × Bool
  | .leaf items, k =>
      let items' := leafRemove items k
      (.leaf items', items'.length < leaf_max_size / 2)
  | .internal pairs, k =>
      let i := childIdx pairs k
      match h : pairs[i]? with
      | none => (.internal pairs, false)
      | some (ki, c) =>
          match removeRec leaf_max_size internal_max_size c k with
          | (c', fix) =>
              let ps := pairs.set i (ki, c')
              if fix then
                match fixChild leaf_max_size internal_max_size ps i with
                | (ps', merged) => (.internal ps', merged)
              else (.internal ps, false)
decreasing_by
  have hmem := List.getElem?_mem h
  have hsz := List.sizeOf_lt_of_mem hmem
  simp at hsz ⊢
  omega

/-- `BPlusTree::AdjustRoot`: an internal root left with a single child
promotes that child; an empty leaf root empties the tree; otherwise the root
stays. -/
def adjustRoot : BPTreeNode → BPlusTree
  | .internal [p] => some p.2
  | .leaf [] => none
  | t => some t

/-- `BPlusTree::Remove`. -/
def remove (leaf_max_size internal_max_size : Nat) (t : BPlusTree) (k : Nat) : BPlusTree :=
  match t with
  | none => none
  | some root =>
      match removeRec leaf_max_size internal_max_size root k with
      | (root', fix) => if fix then adjustRoot root' else some root'

/-- `BPlusTree::GetValue`: `false` on an empty tree, else a leaf lookup at
the `FindLeafPage` leaf; a hit pushes the single value into the result set. -/
def getValue (t : BPlusTree) (k : Nat) : Bool × List Nat :=
  match t with
  | none => (false, [])
  | some root =>
      match leafLookup (findLeaf root k) k with
      | some v => (true, [v])
      | none => (false, [])

/-! ## Concrete states used by witnesses and counterexamples -/

/-- A one-frame pool holding page 5 dirty and unpinned. -/
def bpmDirtyFixture : BufferPoolManager :=
  { pool_size := 1,
    pages := [{ page_id := 5, pin_count := 0, is_dirty := true, data := 42 }],
    page_table := [(5, 0)],
    free_list := [],
    replacer := { num_pages := 1, lru_list := [0] },
    disk_manager := { disk := [], next_page_id := 6 } }

/-- A one-frame pool holding page 5 clean with pin count 2. -/
def bpmPinnedFixture : BufferPoolManager :=
  { pool_size := 1,
    pages := [{ page_id := 5, pin_count := 2, is_dirty := false, data := 42 }],
    page_table := [(5, 0)],
    free_list := [],
    replacer := { num_pages := 1, lru_list := [] },
    disk_manager := { disk := [], next_page_id := 6 } }

/-- A growing repeatable-read transaction holding a shared lock on rid 7. -/
def txnRRGrow : Transaction :=
  { txn_id := 1, state := .growing, isolation_level := .repeatable_read,
    shared_lock_set := [7], exclusive_lock_set := [] }

/-- The lock table matching `txnRRGrow`'s shared lock. -/
def ltRR : LockTable :=
  [(7, { request_queue := [{ txn_id := 1, lock_mode := .shared, granted := true }],
         reader_count := 1, writer_enter := false, upgrading := false })]

/-- A shrinking repeatable-read transaction holding no locks. -/
def txnRRShrink : Transaction :=
  { txn_id := 1, state := .shrinking, isolation_level := .repeatable_read,
    shared_lock_set := [], exclusive_lock_set := [] }

/-- A growing read-uncommitted transaction holding no locks. -/
def txnRU : Transaction :=
  { txn_id := 2, state := .growing, isolation_level := .read_uncommitted,
    shared_lock_set := [], exclusive_lock_set := [] }

/-- A lock table with one queue in which a granted shared request of
transaction 2 sits between two ungranted exclusive requests (of
transactions 5 and 1) — a state the lock manager produces when a shared
request arrives while an exclusive request is still waiting. -/
def queueCEx : LockTable :=
  [(0, { request_queue :=
           [{ txn_id := 5, lock_mode := .exclusive, granted := false },
            { txn_id := 2, lock_mode := .shared, granted := true },
            { txn_id := 1, lock_mode := .exclusive, granted := false }],
         reader_count := 1, writer_enter := false, upgrading := false })]

/-- A lock table with one queue: a granted shared request of transaction 2
ahead of an ungranted exclusive request of transaction 5. -/
def queueSimple : LockTable :=
  [(0, { request_queue :=
           [{ txn_id := 2, lock_mode := .shared, granted := true },
            { txn_id := 5, lock_mode := .exclusive, granted := false }],
         reader_count := 1, writer_enter := false, upgrading := false })]

/-! # Theorems -/

/-! ## C10: incrementing the end iterator -/

/-- C10: incrementing the end iterator of the B+tree index iterator (the
iterator whose page id is invalid) is the identity: `operator++` on an
iterator for which `isEnd()` holds returns it unchanged, so it still
compares equal to the end iterator. -/
theorem iterInc_end_identity (store : LeafStore) (it : IndexIterator)
    (h : it.isEnd = true) :
    iterInc store it = it ∧ iterEq (iterInc store it) iterEnd = iterEq it iterEnd := by
  simp [iterInc, h]

/-- Witness for `iterInc_end_identity` at the end iterator itself over an
empty leaf store. -/
theorem iterInc_end_identity_witness :
    IndexIterator.isEnd { page_id := INVALID_PAGE_ID, index := 0 } = true ∧
    iterInc [] { page_id := INVALID_PAGE_ID, index := 0 } =
      { page_id := INVALID_PAGE_ID, index := 0 } :=
  ⟨by decide, (iterInc_end_identity [] _ (by decide)).1⟩

/-! ## C8: Unpin -/

/-- C8: `Unpin(page_id, is_dirty)` returns false precisely when the page is
not resident or its pin count is already 0; otherwise it ORs the frame's
dirty flag with `is_dirty`, decrements the pin count, returns true, and
marks the frame evictable in the replacer exactly when the pin count
reaches 0. -/
theorem unpinPage_spec (b : BufferPoolManager) (page_id : Int) (is_dirty : Bool) :
    ((b.unpinPage page_id is_dirty).1 = false ↔
      b.page_table.lookup page_id = none ∨
      ∃ f, b.page_table.lookup page_id = some f ∧
        (b.pages.getD f Page.empty).pin_count = 0) ∧
    (∀ f, b.page_table.lookup page_id = some f →
      (b.pages.getD f Page.empty).pin_count ≠ 0 →
      (b.unpinPage page_id is_dirty).1 = true ∧
      (b.unpinPage page_id is_dirty).2 =
        { b with
            pages := b.pages.set f
              { b.pages.getD f Page.empty with
                  is_dirty := (b.pages.getD f Page.empty).is_dirty || is_dirty,
                  pin_count := (b.pages.getD f Page.empty).pin_count - 1 },
            replacer := if (b.pages.getD f Page.empty).pin_count - 1 = 0
                        then b.replacer.unpin f else b.replacer }) := by
  constructor
  · cases hl : b.page_table.lookup page_id with
    | none => simp [BufferPoolManager.unpinPage, hl]
    | some f0 =>
        by_cases hp : (b.pages.getD f0 Page.empty).pin_count = 0
        · simp [BufferPoolManager.unpinPage, hl, hp, -List.getD_eq_getElem?_getD]
        · simp [BufferPoolManager.unpinPage, hl, hp, -List.getD_eq_getElem?_getD]
  · intro f hl hp
    simp [BufferPoolManager.unpinPage, hl, hp, -List.getD_eq_getElem?_getD]

/-- Witness for `unpinPage_spec` on a resident page with pin count 2. -/
theorem unpinPage_spec_witness :
    (bpmPinnedFixture.unpinPage 5 true).1 = true :=
  ((unpinPage_spec bpmPinnedFixture 5 true).2 0 (by decide) (by decide)).1

/-! ## C5: write-back of dirty frames -/

/-- `GetVictimFrameId` does not touch the frame array. -/
theorem getVictimFrameId_pages (b : BufferPoolManager) :
    (b.getVictimFrameId).2.pages = b.pages := by
  unfold BufferPoolManager.getVictimFrameId
  cases b.free_list <;> simp

/-- Counterexample to C5 as stated: `DeletePage` removes a resident dirty
page with pin count 0 without issuing any disk write. -/
theorem deletePage_drops_dirty_page :
    (bpmDirtyFixture.pages.getD 0 Page.empty).is_dirty = true ∧
    (bpmDirtyFixture.deletePage 5).1 = true ∧
    (bpmDirtyFixture.deletePage 5).2.1.page_table.lookup 5 = none ∧
    (bpmDirtyFixture.deletePage 5).2.2 = [] := by decide

/-- C5 (amended): `FetchPage` and `NewPage` write a dirty victim frame's
bytes back to disk before reusing the frame, and `DeletePage` never writes
back — its write trace is empty for every state and page id. -/
theorem dirty_victim_written_back (b : BufferPoolManager) (page_id : Int) (f : Nat) :
    (b.page_table.lookup page_id = none →
      (b.getVictimFrameId).1 = some f →
      (b.pages.getD f Page.empty).is_dirty = true →
      (b.fetchPage page_id).2.2 =
        [((b.pages.getD f Page.empty).page_id, (b.pages.getD f Page.empty).data)]) ∧
    ((b.getVictimFrameId).1 = some f →
      (b.pages.getD f Page.empty).is_dirty = true →
      (b.newPage).2.2 =
        [((b.pages.getD f Page.empty).page_id, (b.pages.getD f Page.empty).data)]) ∧
    (∀ pid, (b.deletePage pid).2.2 = []) := by
  refine ⟨?_, ?_, ?_⟩
  · intro hl hv hd
    rcases hveq : b.getVictimFrameId with ⟨vopt, b₁⟩
    have hpages : b₁.pages = b.pages := by
      have := getVictimFrameId_pages b
      rw [hveq] at this
      exact this
    rw [hveq] at hv
    simp at hv
    subst hv
    simp [BufferPoolManager.fetchPage, hl, hveq, hpages, hd, -List.getD_eq_getElem?_getD]
  · intro hv hd
    rcases hveq : b.getVictimFrameId with ⟨vopt, b₁⟩
    have hpages : b₁.pages = b.pages := by
      have := getVictimFrameId_pages b
      rw [hveq] at this
      exact this
    rw [hveq] at hv
    simp at hv
    subst hv
    simp [BufferPoolManager.newPage, hveq, hpages, hd, -List.getD_eq_getElem?_getD]
  · intro pid
    cases hl : b.page_table.lookup pid with
    | none => simp [BufferPoolManager.deletePage, hl]
    | some f0 =>
        by_cases hp : (b.pages.getD f0 Page.empty).pin_count > 0 <;>
          simp [BufferPoolManager.deletePage, hl, hp, -List.getD_eq_getElem?_getD]

/-- Witness for `dirty_victim_written_back`: the dirty fixture page is
written back by `NewPage`. -/
theorem dirty_victim_written_back_witness :
    (bpmDirtyFixture.newPage).2.2 = [(5, 42)] :=
  (dirty_victim_written_back bpmDirtyFixture 0 0).2.1 (by decide) (by decide)

/-! ## C6: two-phase locking under repeatable read -/

/-- C6: under repeatable-read, the first `Unlock` of a growing transaction
moves it to shrinking (the read-committed shared-lock exception does not
apply), and any later `LockShared`/`LockExclusive` on a shrinking
transaction raises a lock-on-shrinking abort (setting the state to aborted,
changing nothing else) instead of granting. -/
theorem repeatable_read_two_phase (lt : LockTable) (txn : Transaction) (rid : Nat)
    (hiso : txn.isolation_level = IsolationLevel.repeatable_read) :
    (txn.state = TransactionState.growing →
      ∀ req, getRequest (ltGet lt rid) txn.txn_id = some req →
        ∃ txn' lt', unlock lt txn rid = some (txn', lt') ∧
          txn'.state = TransactionState.shrinking) ∧
    (txn.state = TransactionState.shrinking →
      lockShared lt txn rid =
        LockOutcome.aborted .lock_on_shrinking { txn with state := .aborted } lt ∧
      lockExclusive lt txn rid =
        LockOutcome.aborted .lock_on_shrinking { txn with state := .aborted } lt) := by
  constructor
  · intro hst req hreq
    unfold unlock
    rw [hreq]
    exact ⟨_, _, rfl, by simp [hst, hiso]⟩
  · intro hst
    constructor
    · simp [lockShared, hst]
    · simp [lockExclusive, hst]

/-- Witness for `repeatable_read_two_phase`: a growing repeatable-read
transaction turns shrinking on unlock, and a shrinking one is aborted by
`LockShared`. -/
theorem repeatable_read_two_phase_witness :
    (∃ txn' lt', unlock ltRR txnRRGrow 7 = some (txn', lt') ∧
      txn'.state = TransactionState.shrinking) ∧
    lockShared [] txnRRShrink 9 =
      LockOutcome.aborted .lock_on_shrinking { txnRRShrink with state := .aborted } [] :=
  ⟨(repeatable_read_two_phase ltRR txnRRGrow 7 rfl).1 rfl
      { txn_id := 1, lock_mode := .shared, granted := true } (by decide),
   ((repeatable_read_two_phase [] txnRRShrink 9 rfl).2 rfl).1⟩

/-! ## C7: LockShared failure conditions -/

/-- C7: for a live transaction (growing or shrinking) — with the reachable
invariant that a read-uncommitted transaction holds no shared locks —
`LockShared` raises an abort exactly when the transaction is shrinking or
its isolation level is read-uncommitted; the failure carries reason
lock-on-shrinking respectively shared-on-read-uncommitted, sets the state
to aborted, and changes neither the lock sets nor the lock table. -/
theorem lockShared_failure_spec (lt : LockTable) (txn : Transaction) (rid : Nat)
    (hactive : txn.state = TransactionState.growing ∨
               txn.state = TransactionState.shrinking)
    (hru : txn.isolation_level = IsolationLevel.read_uncommitted →
           rid ∉ txn.shared_lock_set) :
    ((lockShared lt txn rid).isAborted = true ↔
      txn.state = TransactionState.shrinking ∨
      txn.isolation_level = IsolationLevel.read_uncommitted) ∧
    (txn.state = TransactionState.shrinking →
      lockShared lt txn rid =
        LockOutcome.aborted .lock_on_shrinking { txn with state := .aborted } lt) ∧
    (txn.state ≠ TransactionState.shrinking →
      txn.isolation_level = IsolationLevel.read_uncommitted →
      lockShared lt txn rid =
        LockOutcome.aborted .lockshared_on_read_uncommitted
          { txn with state := .aborted } lt) := by
  by_cases hst : txn.state = TransactionState.shrinking
  · refine ⟨?_, fun _ => by simp [lockShared, hst], fun h => absurd hst h⟩
    simp [lockShared, hst, LockOutcome.isAborted]
  · have hgrow : txn.state = TransactionState.growing := by
      rcases hactive with h | h
      · exact h
      · exact absurd h hst
    by_cases hiso : txn.isolation_level = IsolationLevel.read_uncommitted
    · have hmem : rid ∉ txn.shared_lock_set := hru hiso
      refine ⟨?_, fun h => absurd h hst, fun _ _ => ?_⟩
      · simp [lockShared, hst, hiso, hmem, LockOutcome.isAborted]
      · simp [lockShared, hst, hiso, hmem]
    · refine ⟨?_, fun h => absurd h hst, fun _ h => absurd h hiso⟩
      by_cases hmem : rid ∈ txn.shared_lock_set
      · simp [lockShared, hst, hiso, hmem, LockOutcome.isAborted]
      · by_cases hw : (ltGet lt rid).writer_enter
        · simp [lockShared, hst, hiso, hmem, hw, hgrow, LockOutcome.isAborted]
        · simp [lockShared, hst, hiso, hmem, hw, hgrow, LockOutcome.isAborted]

/-- Witness for `lockShared_failure_spec`: a growing read-uncommitted
transaction is aborted by `LockShared`. -/
theorem lockShared_failure_spec_witness :
    (lockShared [] txnRU 3).isAborted = true :=
  ((lockShared_failure_spec [] txnRU 3 (Or.inl rfl) (fun _ => by decide)).1).mpr
    (Or.inr rfl)

/-! ## C9: sequential scan locking discipline -/

/-- C9: for every tuple examined by `SeqScan::Next` under an isolation level
other than read-uncommitted, the shared lock on the tuple's rid is acquired
immediately before the tuple is materialized (skipped only when the
transaction already holds the exclusive lock); under read-committed the lock
is released immediately after predicate evaluation on both the match and the
non-match path; under repeatable-read `Next` releases nothing. -/
theorem seqScanNext_locking (txn : ScanTxn) (pred : Nat → Bool) (proj : Nat → Nat)
    (tbl : List (Nat × Nat)) :
    (txn.isolation_level ≠ IsolationLevel.read_uncommitted →
      lockHeldAtMaterialize (fun r => !decide (r ∈ txn.exclusive_lock_set))
        (seqScanNext txn pred proj tbl).2 = true) ∧
    (txn.isolation_level = IsolationLevel.read_committed →
      unlockFollowsMaterialize (seqScanNext txn pred proj tbl).2 = true) ∧
    (txn.isolation_level = IsolationLevel.repeatable_read →
      noUnlockEvents (seqScanNext txn pred proj tbl).2 = true) := by
  induction tbl with
  | nil => simp [seqScanNext, lockHeldAtMaterialize, unlockFollowsMaterialize, noUnlockEvents]
  | cons hd tl ih =>
      obtain ⟨rid, tuple⟩ := hd
      obtain ⟨ih1, ih2, ih3⟩ := ih
      refine ⟨?_, ?_, ?_⟩
      · intro hru
        by_cases hrc : txn.isolation_level = IsolationLevel.read_committed <;>
        by_cases hmem : rid ∈ txn.exclusive_lock_set <;>
        by_cases hpred : pred tuple = true <;>
          simp [seqScanNext, seqScanUnlock, lockHeldAtMaterialize, hru, hrc, hmem, hpred,
            ih1 hru]
      · intro hrc
        have hru : txn.isolation_level ≠ IsolationLevel.read_uncommitted := by
          rw [hrc]; intro hcontra; cases hcontra
        by_cases hmem : rid ∈ txn.exclusive_lock_set <;>
        by_cases hpred : pred tuple = true <;>
          simp [seqScanNext, seqScanUnlock, unlockFollowsMaterialize, hru, hrc, hmem, hpred,
            ih2 hrc]
      · intro hrr
        have hru : txn.isolation_level ≠ IsolationLevel.read_uncommitted := by
          rw [hrr]; intro hcontra; cases hcontra
        have hrc : txn.isolation_level ≠ IsolationLevel.read_committed := by
          rw [hrr]; intro hcontra; cases hcontra
        by_cases hmem : rid ∈ txn.exclusive_lock_set <;>
        by_cases hpred : pred tuple = true <;>
          simp [seqScanNext, seqScanUnlock, noUnlockEvents, hru, hrc, hmem, hpred,
            ih3 hrr]

/-- Witness for `seqScanNext_locking`: a read-committed scan over two tuples
(one failing, one passing the predicate) unlocks after each materialization. -/
theorem seqScanNext_locking_witness :
    unlockFollowsMaterialize
      (seqScanNext { isolation_level := .read_committed, exclusive_lock_set := [] }
        (fun t => decide (t > 5)) id [(1, 3), (2, 9)]).2 = true :=
  (seqScanNext_locking { isolation_level := .read_committed, exclusive_lock_set := [] }
    (fun t => decide (t > 5)) id [(1, 3), (2, 9)]).2.1 rfl

/-! ## C3: wait-for graph construction -/

/-- Keyed lookup is untouched by filtering away another key's entries. -/
theorem lookup_filter_ne {α : Type} (g : List (Nat × α)) (t x : Nat) (hx : x ≠ t) :
    (g.filter (fun e => e.1 ≠ t)).lookup x = g.lookup x := by
  induction g with
  | nil => rfl
  | cons hd tl ih =>
      obtain ⟨a, v⟩ := hd
      simp only [decide_not] at ih
      by_cases h1 : a = t
      · subst h1
        have hbeq : (x == a) = false := by simp [hx]
        simp [List.filter_cons, List.lookup, hbeq, ih]
      · cases hxa : x == a <;> simp [List.filter_cons, h1, List.lookup, hxa, ih]

/-- Reading an adjacency list after storing one. -/
theorem adjGet_adjSet (g : WaitGraph) (t : Nat) (ns : List Nat) (x : Nat) :
    adjGet (adjSet g t ns) x = if x = t then ns else adjGet g x := by
  unfold adjGet adjSet
  by_cases hx : x = t
  · subst hx; simp [List.lookup]
  · have hxh : (x == t) = false := by simp [hx]
    have hfl := lookup_filter_ne g t x hx
    simp only [List.lookup, hxh, hx, if_neg]
    rw [hfl]
    simp

/-- Edge membership after `AddEdge`. -/
theorem hasEdge_addEdge (g : WaitGraph) (a b x y : Nat) :
    hasEdge (addEdge g a b) x y = true ↔
      hasEdge g x y = true ∨ (x = a ∧ y = b) := by
  unfold addEdge hasEdge
  by_cases hb : b ∈ adjGet g a
  · rw [if_pos hb]
    constructor
    · exact fun h => Or.inl h
    · rintro (h | ⟨rfl, rfl⟩)
      · exact h
      · simpa using hb
  · rw [if_neg hb]
    by_cases hx : x = a
    · subst hx
      simp [adjGet_adjSet]
    · simp [adjGet_adjSet, hx]

/-- Edge membership after the inner `for (auto &t2 : grants)` loop. -/
theorem hasEdge_foldl_grants (grants : List Nat) (g : WaitGraph) (a x y : Nat) :
    hasEdge (grants.foldl (fun g t2 => addEdge g a t2) g) x y = true ↔
      hasEdge g x y = true ∨ (x = a ∧ y ∈ grants) := by
  induction grants generalizing g with
  | nil => simp
  | cons hd tl ih =>
      simp only [List.foldl_cons, ih, hasEdge_addEdge, List.mem_cons]
      constructor
      · rintro ((h | ⟨rfl, rfl⟩) | ⟨rfl, hm⟩)
        · exact Or.inl h
        · exact Or.inr ⟨rfl, Or.inl rfl⟩
        · exact Or.inr ⟨rfl, Or.inr hm⟩
      · rintro (h | ⟨rfl, (rfl | hm)⟩)
        · exact Or.inl (Or.inl h)
        · exact Or.inl (Or.inr ⟨rfl, rfl⟩)
        · exact Or.inr ⟨rfl, hm⟩

/-- Edge membership after the outer loop over the waiting requests. -/
theorem hasEdge_foldl_rest (rest : List LockRequest) (grants : List Nat)
    (g : WaitGraph) (x y : Nat) :
    hasEdge (rest.foldl
        (fun g r => grants.foldl (fun g t2 => addEdge g r.txn_id t2) g) g) x y = true ↔
      hasEdge g x y = true ∨ (∃ r ∈ rest, x = r.txn_id ∧ y ∈ grants) := by
  induction rest generalizing g with
  | nil => simp
  | cons hd tl ih =>
      simp only [List.foldl_cons, ih, hasEdge_foldl_grants, List.mem_cons]
      constructor
      · rintro ((h | hm) | ⟨r, hr, hm⟩)
        · exact Or.inl h
        · exact Or.inr ⟨hd, Or.inl rfl, hm⟩
        · exact Or.inr ⟨r, Or.inr hr, hm⟩
      · rintro (h | ⟨r, (rfl | hr), hm⟩)
        · exact Or.inl (Or.inl h)
        · exact Or.inl (Or.inr hm)
        · exact Or.inr ⟨r, hr, hm⟩

/-- Edge membership after one queue's contribution. -/
theorem hasEdge_buildQueueEdges (g : WaitGraph) (rs : List LockRequest) (x y : Nat) :
    hasEdge (buildQueueEdges g rs) x y = true ↔
      hasEdge g x y = true ∨ (x ∈ waiterIds rs ∧ y ∈ grantIds rs) := by
  unfold buildQueueEdges
  rw [hasEdge_foldl_rest]
  simp only [waiterIds, grantIds, List.mem_map]
  constructor
  · rintro (h | ⟨r, hr, rfl, hm⟩)
    · exact Or.inl h
    · exact Or.inr ⟨⟨r, hr, rfl⟩, hm⟩
  · rintro (h | ⟨⟨r, hr, rfl⟩, hm⟩)
    · exact Or.inl h
    · exact Or.inr ⟨r, hr, rfl, hm⟩

/-- Counterexample to C3 as stated: in a queue holding an ungranted exclusive
request (txn 5), then a granted shared request (txn 2), then an ungranted
exclusive request (txn 1), transaction 1 waits behind a granted request of
transaction 2, yet `RunCycleDetection` builds no edge 1 → 2, because its
first loop only collects the granted prefix of the queue, which is empty
here. -/
theorem specEdge_without_hasEdge :
    specEdge queueCEx 1 2 ∧ hasEdge (buildGraph queueCEx) 1 2 = false := by
  constructor
  · unfold specEdge queueCEx
    exact ⟨_, List.mem_cons_self _ _, 2, 1, by omega,
      ⟨_, rfl, rfl, rfl⟩, ⟨_, rfl, rfl, rfl⟩⟩
  · decide

/-- C3 (amended): the wait-for graph built by one detector round has an edge
t1 → t2 exactly when some queue has t2's request inside its maximal granted
prefix and t1's request (granted or not) positioned behind that prefix. -/
theorem buildGraph_edge_iff (lt : LockTable) (t1 t2 : Nat) :
    hasEdge (buildGraph lt) t1 t2 = true ↔
      ∃ e ∈ lt, t1 ∈ waiterIds e.2.request_queue ∧ t2 ∈ grantIds e.2.request_queue := by
  have main : ∀ g : WaitGraph,
      hasEdge (lt.foldl (fun g e => buildQueueEdges g e.2.request_queue) g) t1 t2 = true ↔
        hasEdge g t1 t2 = true ∨
          ∃ e ∈ lt, t1 ∈ waiterIds e.2.request_queue ∧ t2 ∈ grantIds e.2.request_queue := by
    induction lt with
    | nil => simp
    | cons hd tl ih =>
        intro g
        simp only [List.foldl_cons, ih, hasEdge_buildQueueEdges, List.mem_cons]
        constructor
        · rintro ((h | hm) | ⟨e, he, hm⟩)
          · exact Or.inl h
          · exact Or.inr ⟨hd, Or.inl rfl, hm⟩
          · exact Or.inr ⟨e, Or.inr he, hm⟩
        · rintro (h | ⟨e, (rfl | he), hm⟩)
          · exact Or.inl (Or.inl h)
          · exact Or.inl (Or.inr hm)
          · exact Or.inr ⟨e, he, hm⟩
  have h0 : hasEdge ([] : WaitGraph) t1 t2 = false := by
    simp [hasEdge, adjGet, List.lookup]
  rw [buildGraph, main []]
  simp [h0]

/-- Witness for `buildGraph_edge_iff`: the waiting exclusive request of
transaction 5 yields the edge 5 → 2 to the granted reader. -/
theorem buildGraph_edge_iff_witness :
    hasEdge (buildGraph queueSimple) 5 2 = true := by
  rw [buildGraph_edge_iff]
  unfold queueSimple
  exact ⟨_, List.mem_cons_self _ _, by decide, by decide⟩

/-! ## C4: the deadlock victim is the largest id on the DFS stack -/

/-- Membership in a `std::set` insertion. -/
theorem mem_setInsert (x y : Nat) : ∀ l : List Nat, y ∈ setInsert x l ↔ y = x ∨ y ∈ l := by
  intro l
  induction l with
  | nil => simp [setInsert]
  | cons a l ih =>
      by_cases h1 : x < a
      · simp [setInsert, h1]
      · by_cases h2 : x = a
        · subst h2
          simp [setInsert, h1]
        · simp only [setInsert, h1, h2, if_neg, if_false, List.mem_cons, ih]
          tauto

/-- `std::set` insertion keeps the ascending order strict. -/
theorem sorted_setInsert (x : Nat) :
    ∀ l : List Nat, l.Sorted (· < ·) → (setInsert x l).Sorted (· < ·) := by
  intro l
  induction l with
  | nil => intro _; simp [setInsert]
  | cons a l ih =>
      intro hs
      by_cases h1 : x < a
      · simp only [setInsert, h1, if_pos]
        rw [List.sorted_cons]
        refine ⟨?_, hs⟩
        intro b hb
        rcases List.mem_cons.mp hb with rfl | hb'
        · exact h1
        · exact lt_trans h1 (List.rel_of_sorted_cons hs b hb')
      · by_cases h2 : x = a
        · simpa [setInsert, h1, h2] using hs
        · have hax : a < x := by omega
          simp only [setInsert, h1, h2, if_neg, if_false]
          rw [List.sorted_cons]
          refine ⟨?_, ih hs.of_cons⟩
          intro b hb
          rcases (mem_setInsert x b l).mp hb with rfl | hb'
          · exact hax
          · exact List.rel_of_sorted_cons hs b hb'

/-- `DFS` and its neighbour loop keep the stack set strictly ascending. -/
theorem dfs_sorted (g : WaitGraph) :
    ∀ fuel : Nat,
      (∀ v st, st.on_stack_txns.Sorted (· < ·) →
        (dfs g fuel v st).on_stack_txns.Sorted (· < ·)) ∧
      (∀ v ns st, st.on_stack_txns.Sorted (· < ·) →
        (dfsLoop g fuel v ns st).on_stack_txns.Sorted (· < ·)) := by
  intro fuel
  induction fuel with
  | zero =>
      have hdfs : ∀ v st, st.on_stack_txns.Sorted (· < ·) →
          (dfs g 0 v st).on_stack_txns.Sorted (· < ·) := by
        intro v st hs
        simpa [dfs] using hs
      refine ⟨hdfs, ?_⟩
      intro v ns
      induction ns with
      | nil =>
          intro st hs
          simp only [dfsLoop]
          exact List.Pairwise.sublist (List.erase_sublist _ _) hs
      | cons t2 ts ih =>
          intro st hs
          simp only [dfsLoop]
          by_cases hmem : t2 ∈ st.on_stack_txns
          · simpa [hmem] using hs
          · simpa [hmem] using ih _ (hdfs _ _ hs)
  | succ m ihm =>
      obtain ⟨_, ihl⟩ := ihm
      have hdfs : ∀ v st, st.on_stack_txns.Sorted (· < ·) →
          (dfs g (m + 1) v st).on_stack_txns.Sorted (· < ·) := by
        intro v st hs
        simp only [dfs]
        by_cases hc : st.has_cycle
        · simpa [hc] using hs
        · simpa [hc] using ihl _ _ _ (sorted_setInsert _ _ hs)
      refine ⟨hdfs, ?_⟩
      intro v ns
      induction ns with
      | nil =>
          intro st hs
          simp only [dfsLoop]
          exact List.Pairwise.sublist (List.erase_sublist _ _) hs
      | cons t2 ts ih =>
          intro st hs
          simp only [dfsLoop]
          by_cases hmem : t2 ∈ st.on_stack_txns
          · simpa [hmem] using hs
          · simpa [hmem] using ih _ (hdfs _ _ hs)

/-- Stack members other than the owning vertex survive `DFS`: the only
erasures are of loop-owning vertices, each of which was off the stack when
its call began. -/
theorem dfs_preserves_mem (g : WaitGraph) :
    ∀ fuel : Nat,
      (∀ v st w, w ∈ st.on_stack_txns → v ∉ st.on_stack_txns →
        w ∈ (dfs g fuel v st).on_stack_txns) ∧
      (∀ v ns st w, w ∈ st.on_stack_txns → w ≠ v →
        w ∈ (dfsLoop g fuel v ns st).on_stack_txns) := by
  intro fuel
  induction fuel with
  | zero =>
      have hdfs : ∀ v st w, w ∈ st.on_stack_txns → v ∉ st.on_stack_txns →
          w ∈ (dfs g 0 v st).on_stack_txns := by
        intro v st w hw _
        simpa [dfs] using hw
      refine ⟨hdfs, ?_⟩
      intro v ns
      induction ns with
      | nil =>
          intro st w hw hne
          simp only [dfsLoop]
          exact (List.mem_erase_of_ne hne).mpr hw
      | cons t2 ts ih =>
          intro st w hw hne
          simp only [dfsLoop]
          by_cases hmem : t2 ∈ st.on_stack_txns
          · simpa [hmem] using hw
          · simpa [hmem] using ih _ w (hdfs _ _ w hw hmem) hne
  | succ m ihm =>
      obtain ⟨_, ihl⟩ := ihm
      have hdfs : ∀ v st w, w ∈ st.on_stack_txns → v ∉ st.on_stack_txns →
          w ∈ (dfs g (m + 1) v st).on_stack_txns := by
        intro v st w hw hv
        simp only [dfs]
        by_cases hc : st.has_cycle
        · simpa [hc] using hw
        · have hw' : w ∈ setInsert v st.on_stack_txns := (mem_setInsert _ _ _).mpr (Or.inr hw)
          have hne : w ≠ v := fun h => hv (h ▸ hw)
          simpa [hc] using ihl _ _ _ w hw' hne
      refine ⟨hdfs, ?_⟩
      intro v ns
      induction ns with
      | nil =>
          intro st w hw hne
          simp only [dfsLoop]
          exact (List.mem_erase_of_ne hne).mpr hw
      | cons t2 ts ih =>
          intro st w hw hne
          simp only [dfsLoop]
          by_cases hmem : t2 ∈ st.on_stack_txns
          · simpa [hmem] using hw
          · simpa [hmem] using ih _ w (hdfs _ _ w hw hmem) hne

/-- When a `DFS` call turns `has_cycle_` on, the stack it leaves behind is
inhabited: the vertex whose loop hit an on-stack neighbour returns early and
is never erased. -/
theorem dfs_cycle_stack_inhabited (g : WaitGraph) :
    ∀ fuel : Nat,
      (∀ v st, st.has_cycle = false → (dfs g fuel v st).has_cycle = true →
        ∃ x, x ∈ (dfs g fuel v st).on_stack_txns ∧
          (x ∉ st.on_stack_txns ∨ x = v)) ∧
      (∀ v ns st, v ∈ st.on_stack_txns → st.has_cycle = false →
        (dfsLoop g fuel v ns st).has_cycle = true →
        ∃ x, x ∈ (dfsLoop g fuel v ns st).on_stack_txns ∧
          (x ∉ st.on_stack_txns ∨ x = v)) := by
  intro fuel
  induction fuel with
  | zero =>
      have hdfs : ∀ v st, st.has_cycle = false → (dfs g 0 v st).has_cycle = true →
          ∃ x, x ∈ (dfs g 0 v st).on_stack_txns ∧ (x ∉ st.on_stack_txns ∨ x = v) := by
        intro v st hc hout
        simp [dfs] at hout
        simp [hout] at hc
      refine ⟨hdfs, ?_⟩
      intro v ns
      induction ns with
      | nil =>
          intro st hv hc hout
          simp [dfsLoop] at hout
          simp [hout] at hc
      | cons t2 ts ih =>
          intro st hv hc hout
          simp only [dfsLoop] at hout ⊢
          by_cases hmem : t2 ∈ st.on_stack_txns
          · simp only [hmem, if_pos] at hout ⊢
            exact ⟨v, hv, Or.inr rfl⟩
          · simp only [hmem, if_neg, if_false] at hout ⊢
            have hst1 : dfs g 0 t2 st = st := by simp [dfs]
            rw [hst1] at hout ⊢
            exact ih _ hv hc hout
  | succ m ihm =>
      obtain ⟨_, ihl⟩ := ihm
      have hdfs : ∀ v st, st.has_cycle = false → (dfs g (m + 1) v st).has_cycle = true →
          ∃ x, x ∈ (dfs g (m + 1) v st).on_stack_txns ∧
            (x ∉ st.on_stack_txns ∨ x = v) := by
        intro v st hc hout
        have hstep : dfs g (m + 1) v st =
            dfsLoop g m v ((adjGet g v).mergeSort (· ≤ ·))
              ⟨setInsert v st.on_stack_txns, st.has_cycle⟩ := by
          simp [dfs, hc]
        rw [hstep] at hout ⊢
        have hvin : v ∈ setInsert v st.on_stack_txns := (mem_setInsert _ _ _).mpr (Or.inl rfl)
        obtain ⟨x, hx, hd⟩ := ihl v _ ⟨setInsert v st.on_stack_txns, st.has_cycle⟩ hvin hc hout
        refine ⟨x, hx, ?_⟩
        rcases hd with hnot | rfl
        · left
          intro hmem
          exact hnot ((mem_setInsert _ _ _).mpr (Or.inr hmem))
        · right; rfl
      refine ⟨hdfs, ?_⟩
      intro v ns
      induction ns with
      | nil =>
          intro st hv hc hout
          simp [dfsLoop] at hout
          simp [hout] at hc
      | cons t2 ts ih =>
          intro st hv hc hout
          simp only [dfsLoop] at hout ⊢
          by_cases hmem : t2 ∈ st.on_stack_txns
          · simp only [hmem, if_pos] at hout ⊢
            exact ⟨v, hv, Or.inr rfl⟩
          · simp only [hmem, if_neg, if_false] at hout ⊢
            by_cases hc1 : (dfs g (m + 1) t2 st).has_cycle
            · obtain ⟨x0, hx0, hd0⟩ := hdfs t2 st hc hc1
              have hx0v : x0 ≠ v := by
                rcases hd0 with hnot | rfl
                · exact fun h => hnot (h ▸ hv)
                · exact fun h => hmem (h ▸ hv)
              have hx0out := (dfs_preserves_mem g (m + 1)).2 v ts _ x0 hx0 hx0v
              refine ⟨x0, hx0out, ?_⟩
              rcases hd0 with hnot | rfl
              · exact Or.inl hnot
              · exact Or.inl hmem
            · have hvin : v ∈ (dfs g (m + 1) t2 st).on_stack_txns :=
                (dfs_preserves_mem g (m + 1)).1 t2 st v hv hmem
              have hc1' : (dfs g (m + 1) t2 st).has_cycle = false := by
                simpa using hc1
              obtain ⟨x, hx, hd⟩ := ih _ hvin hc1' hout
              refine ⟨x, hx, ?_⟩
              rcases hd with hnot | rfl
              · left
                intro hmem'
                exact hnot ((dfs_preserves_mem g (m + 1)).1 t2 st x hmem' hmem)
              · right; rfl

/-- The `HasCycle` iteration returns, on success, a sorted inhabited stack. -/
theorem hasCycleSearch_props (g : WaitGraph) (fuel : Nat) :
    ∀ txns (st : CycleState), st.on_stack_txns.Sorted (· < ·) → st.has_cycle = false →
      ∀ stOut, hasCycleSearch g fuel txns st = some stOut →
        stOut.on_stack_txns.Sorted (· < ·) ∧ ∃ x, x ∈ stOut.on_stack_txns := by
  intro txns
  induction txns with
  | nil => intro st _ _ stOut h; simp [hasCycleSearch] at h
  | cons t1 ts ih =>
      intro st hs hc stOut h
      simp only [hasCycleSearch] at h
      by_cases hc1 : (dfs g fuel t1 st).has_cycle
      · rw [if_pos hc1] at h
        obtain rfl : dfs g fuel t1 st = stOut := by injection h
        refine ⟨(dfs_sorted g fuel).1 t1 st hs, ?_⟩
        obtain ⟨x, hx, _⟩ := (dfs_cycle_stack_inhabited g fuel).1 t1 st hc hc1
        exact ⟨x, hx⟩
      · rw [if_neg hc1] at h
        exact ih _ ((dfs_sorted g fuel).1 t1 st hs) (by simpa using hc1) stOut h

/-- The last element of a strictly ascending list is its maximum. -/
theorem sorted_getLast_max :
    ∀ l : List Nat, l.Sorted (· < ·) → ∀ v, l.getLast? = some v →
      v ∈ l ∧ ∀ t ∈ l, t ≤ v := by
  intro l
  induction l with
  | nil => intro _ v h; simp at h
  | cons a l ih =>
      intro hs v h
      cases l with
      | nil =>
          simp at h
          subst h
          simp
      | cons b l' =>
          rw [List.getLast?_cons_cons] at h
          obtain ⟨hvmem, hmax⟩ := ih hs.of_cons v h
          refine ⟨List.mem_cons_of_mem _ hvmem, ?_⟩
          intro t ht
          rcases List.mem_cons.mp ht with rfl | ht'
          · have := List.rel_of_sorted_cons hs v hvmem
            omega
          · exact hmax t ht'

/-- C4: when cycle detection (DFS from each vertex in ascending id order,
neighbours in ascending order) finds a cycle, the victim `HasCycle` reports
— `*on_stack_txns_.rbegin()` — is the transaction id on the DFS stack with
the largest id at that moment. -/
theorem hasCycle_victim_is_stack_max (g : WaitGraph) (fuel : Nat) (txns : List Nat)
    (st : CycleState)
    (h : hasCycleSearch g fuel txns { on_stack_txns := [], has_cycle := false } = some st) :
    ∃ v, hasCycle g fuel txns = some v ∧ v ∈ st.on_stack_txns ∧
      ∀ t ∈ st.on_stack_txns, t ≤ v := by
  obtain ⟨hsorted, x, hx⟩ :=
    hasCycleSearch_props g fuel txns _ (by simp) rfl st h
  have hne : st.on_stack_txns ≠ [] := by
    intro hemp
    rw [hemp] at hx
    simp at hx
  obtain ⟨v, hv⟩ : ∃ v, st.on_stack_txns.getLast? = some v := by
    cases hl : st.on_stack_txns.getLast? with
    | none => exact absurd (List.getLast?_eq_none_iff.mp hl) hne
    | some v => exact ⟨v, rfl⟩
  obtain ⟨hvm, hvmax⟩ := sorted_getLast_max _ hsorted v hv
  refine ⟨v, ?_, hvm, hvmax⟩
  simp [hasCycle, h, hv]

/-- Witness for `hasCycle_victim_is_stack_max` on the two-cycle 1 ⇄ 2. -/
theorem hasCycle_victim_is_stack_max_witness :
    ∃ v, hasCycle [(1, [2]), (2, [1])] 2 [1, 2] = some v ∧
      v ∈ ({ on_stack_txns := [2], has_cycle := true } : CycleState).on_stack_txns ∧
      ∀ t ∈ ({ on_stack_txns := [2], has_cycle := true } : CycleState).on_stack_txns,
        t ≤ v := by
  have h : hasCycleSearch [(1, [2]), (2, [1])] 2 [1, 2]
      { on_stack_txns := [], has_cycle := false } =
      some { on_stack_txns := [2], has_cycle := true } := by
    simp [hasCycleSearch, dfs, dfsLoop, adjGet, setInsert, List.lookup]
  exact hasCycle_victim_is_stack_max _ _ _ _ h

/-! ## C1: empty-tree round trip -/

/-- C1: on an empty B+tree, `Insert(K, V)` succeeds and a following
`GetValue(K)` yields exactly {V}; a following `Remove(K)` then `GetValue(K)`
returns false with the empty result set — for every key, value and size
configuration. -/
theorem bptree_empty_roundtrip (leaf_max_size internal_max_size k v : Nat) :
    (insert leaf_max_size internal_max_size none k v).1 = true ∧
    getValue (insert leaf_max_size internal_max_size none k v).2 k = (true, [v]) ∧
    getValue (remove leaf_max_size internal_max_size
        (insert leaf_max_size internal_max_size none k v).2 k) k = (false, []) := by
  refine ⟨rfl, ?_, ?_⟩
  · simp [insert, getValue, findLeaf, leafLookup]
  · by_cases h : (0 : Nat) < leaf_max_size / 2 <;>
      simp [insert, remove, removeRec, leafRemove, adjustRoot, getValue, findLeaf,
        leafLookup, h]

/-! ## C2: inserting an existing key -/

/-- If the read descent finds the key at its leaf, the insertion descent
reports a duplicate: `FindLeafPage` and `InsertIntoLeaf` pick the same child
at every internal node, and the leaf rejects an existing key. -/
theorem insertRec_dup_of_found (lm im k v : Nat) :
    ∀ n : Nat,
      (∀ t : BPTreeNode, sizeOf t ≤ n → ∀ w,
        leafLookup (findLeaf t k) k = some w →
        insertRec lm im t k v = InsResult.dup) ∧
      (∀ ck cc rest, sizeOf cc + sizeOf (rest : List (Nat × BPTreeNode)) ≤ n → ∀ w,
        leafLookup (findLeafChain ck cc rest k) k = some w →
        insChain lm im ck cc rest k v = ChainResult.dup) := by
  intro n
  induction n with
  | zero =>
      constructor
      · intro t hsz
        exfalso
        cases t <;> simp at hsz
      · intro ck cc rest hsz
        exfalso
        cases cc <;> simp at hsz
  | succ n ihn =>
      obtain ⟨iht, ihc⟩ := ihn
      have htree : ∀ t : BPTreeNode, sizeOf t ≤ n + 1 → ∀ w,
          leafLookup (findLeaf t k) k = some w →
          insertRec lm im t k v = InsResult.dup := by
        intro t hsz w hw
        cases t with
        | leaf items =>
            simp only [findLeaf] at hw
            simp [insertRec, hw]
        | internal pairs =>
            cases pairs with
            | nil =>
                simp only [findLeaf] at hw
                simp [leafLookup] at hw
            | cons p rest =>
                obtain ⟨k0, c0⟩ := p
                simp only [findLeaf] at hw
                simp only [insertRec]
                have hsz' : sizeOf c0 + sizeOf rest ≤ n := by
                  simp at hsz
                  omega
                rw [ihc k0 c0 rest hsz' w hw]
      refine ⟨htree, ?_⟩
      intro ck cc rest hsz w hw
      cases rest with
      | nil =>
          simp only [findLeafChain] at hw
          simp only [insChain]
          have hszc : sizeOf cc ≤ n := by
            simp at hsz
            omega
          rw [iht cc hszc w hw]
      | cons p rest' =>
          obtain ⟨k1, c1⟩ := p
          simp only [findLeafChain] at hw
          simp only [insChain]
          by_cases hk : k < k1
          · rw [if_pos hk] at hw ⊢
            have hszc : sizeOf cc ≤ n := by
              simp at hsz
              omega
            rw [iht cc hszc w hw]
          · rw [if_neg hk] at hw ⊢
            have hszc : sizeOf c1 + sizeOf rest' ≤ n := by
              simp at hsz
              omega
            rw [ihc k1 c1 rest' hszc w hw]

/-- C2: on any tree in which `GetValue(K)` succeeds (the tree's observable
membership test), `Insert(K, V)` returns false and leaves the tree — all its
key/value pairs, hence also the root — unchanged, for any value V. -/
theorem insert_existing_key_noop (lm im : Nat) (t : BPlusTree) (k v : Nat)
    (res : List Nat) (h : getValue t k = (true, res)) :
    insert lm im t k v = (false, t) := by
  cases t with
  | none => simp [getValue] at h
  | some root =>
      simp only [getValue] at h
      cases hl : leafLookup (findLeaf root k) k with
      | none => rw [hl] at h; simp at h
      | some w =>
          simp only [insert]
          rw [(insertRec_dup_of_found lm im k v (sizeOf root)).1 root le_rfl w hl]

/-- Witness for `insert_existing_key_noop` on a one-leaf tree holding key 3. -/
theorem insert_existing_key_noop_witness :
    insert 4 4 (some (.leaf [(3, 7)])) 3 9 = (false, some (.leaf [(3, 7)])) :=
  insert_existing_key_noop 4 4 _ 3 9 [7] (by simp [getValue, findLeaf, leafLookup])

end BusTub
